import Mathlib

/-!
Verification of the `emdeer.py` line-classification and block-reassembly
engine (the Fractorp repository's markdown generator).

The Python source is shallowly embedded below.  Python strings are
modelled as Lean `String`s; the Python string operations used by the
program (`strip`, `startswith`, `endswith`, slicing, `split(":")[0]`)
are modelled as explicit `List Char` manipulations, so that every
definition is executable and amenable to proof.  The Python `dict` that
holds the output blocks is modelled as an association list together with
an `dinsert` operation that overwrites the entry for an existing key in
place (exactly the observable behaviour of a Python dict under
`d[k] = v` and `k in d` / `d[k]`).
-/

namespace Emdeer

/-- Python `str.strip()` removes whitespace characters from both ends.
We model the whitespace class with `Char.isWhitespace`. -/
def isSpaceChar (c : Char) : Bool := c.isWhitespace

/-- Character-list version of Python `strip`. -/
def trimChars (l : List Char) : List Char :=
  ((l.dropWhile isSpaceChar).reverse.dropWhile isSpaceChar).reverse

/-- Python `s.strip()`. -/
def pyStrip (s : String) : String := ⟨trimChars s.data⟩

/-- Python `s.startswith(p)`. -/
def pyStartsWith (s p : String) : Bool := p.data.isPrefixOf s.data

/-- Python `s.endswith(p)`. -/
def pyEndsWith (s p : String) : Bool := p.data.isSuffixOf s.data

/-- Python `s[n:]` (slicing by code point). -/
def pySliceFrom (s : String) (n : Nat) : String := ⟨s.data.drop n⟩

/-- Python `s[1:-1]`. -/
def pySliceOneToLast (s : String) : String := ⟨(s.data.drop 1).dropLast⟩

/-- Python `s.split(":")[0]`: the longest colon-free initial segment. -/
def pySplitColonHead (s : String) : String := ⟨s.data.takeWhile (fun c => c != ':')⟩

/-! ### Line classifier (src/docs/implementing-tutorial/emdeer.py) -/

/-- The source's `textPrefix`, the marker that begins each prose line.
(Name adjusted to `textMarker` in this development.) -/
def textMarker : String := "/// "

/-- Python `isBlank(s)`: a line that is empty after stripping both ends. -/
def isBlank (s : String) : Bool := pyStrip s == ""

/-- Python `isText(s)`: starts with the text marker, or strips to the
bare marker (`"///"`). -/
def isText (s : String) : Bool :=
  pyStartsWith s textMarker || (pyStrip s == pyStrip textMarker)

/-- Python `isCode(s)`, the negation of `isText(s)`. -/
def isCode (s : String) : Bool := !isText s

/-- Predicate `isBeginHide(s)`. -/
def isBeginHide (s : String) : Bool := pyStrip s == "MD_BEGIN_HIDE"

/-- Predicate `isEndHide(s)`. -/
def isEndHide (s : String) : Bool := pyStrip s == "MD_END_HIDE"

/-- The source's `stripTextPrefix(x)` is `return s[len(textPrefix):]`:
its body ignores the formal parameter `x` and slices the enclosing
loop's variable `s`.  We embed it with both the captured global `s` and
the ignored argument. -/
def stripTextMarker (s _x : String) : String := pySliceFrom s textMarker.length

/-! ### Blank-line stripping (src/docs/implementing-tutorial/emdeer.py, lines 70-75)

The Python `stripBlankLines` pops blank lines from the front, then from
the back, of the accumulated block content. -/

def stripBlankLines (xs : List String) : List String :=
  ((xs.dropWhile isBlank).reverse.dropWhile isBlank).reverse

/-! ### The output-block dictionary

Python's `dict` under assignment, membership and indexing: an
association list whose insert overwrites an existing key in place. -/

def dinsert (k : String) (v : List String) :
    List (String × List String) → List (String × List String)
  | [] => [(k, v)]
  | (k', v') :: rest => if k' = k then (k, v) :: rest else (k', v') :: dinsert k v rest

/-! ### Output-block parser (src/docs/implementing-tutorial/emdeer.py, lines 78-97)

The loop scans `programOutputLines`; a line whose stripped form starts
with `# [` and ends with `] #` flushes the open block (when its key is
truthy, through `stripBlankLines`) and opens a new block keyed
`s[1:-1].strip()`; every other line is appended to the open block; at
end of input the open block is flushed the same way. -/

/-- The delimiter test on a captured-output line. -/
def isDelimLine (s : String) : Bool :=
  pyStartsWith (pyStrip s) "# [" && pyEndsWith (pyStrip s) "] #"

/-- The key a delimiter line opens: `s[1:-1].strip()` (note: applied to
the raw line `s`, not to `stripped_s`). -/
def delimKey (s : String) : String := pyStrip (pySliceOneToLast s)

/-- The loop state: the dict built so far (`outputBlocks`), the open
block's key (`blockKey`), and its accumulated lines (`blockLines`). -/
structure PState where
  tbl : List (String × List String)
  key : String
  acc : List String
deriving DecidableEq

/-- One iteration of the parsing loop. -/
def parseStep (st : PState) (s : String) : PState :=
  if isDelimLine s then
    { tbl := if st.key = "" then st.tbl
             else dinsert st.key (stripBlankLines st.acc) st.tbl
      key := delimKey s
      acc := [] }
  else { st with acc := st.acc ++ [s] }

/-- The final flush after the loop. -/
def finishTbl (st : PState) : List (String × List String) :=
  if st.key = "" then st.tbl else dinsert st.key (stripBlankLines st.acc) st.tbl

/-- The whole parser: the `outputBlocks` dict of the implementing-tutorial
variant. -/
def outputBlocks (lines : List String) : List (String × List String) :=
  finishTbl (lines.foldl parseStep ⟨[], "", []⟩)

/-! ### Output-block parser, tutorial variant (src/docs/tutorial/emdeer.py, lines 46-60)

Here a delimiter is a line starting with `@OUTPUT`, the key is
`s.split(":")[0]`, no blank lines are stripped, and — because the
`blockLines.append(s)` sits outside the delimiter test — the delimiter
line is itself appended to the accumulator, which is reset only when a
flush actually happens (so lines before the first delimiter stay in the
first block's accumulator). -/

def tutorialParseStep (st : PState) (s : String) : PState :=
  let st1 :=
    if pyStartsWith s "@OUTPUT" then
      if st.key = "" then { st with key := pySplitColonHead s }
      else { tbl := dinsert st.key st.acc st.tbl
             key := pySplitColonHead s
             acc := [] }
    else st
  { st1 with acc := st1.acc ++ [s] }

def tutorialOutputBlocks (lines : List String) : List (String × List String) :=
  let st := lines.foldl tutorialParseStep ⟨[], "", []⟩
  if st.key = "" then st.tbl else dinsert st.key st.acc st.tbl

/-! ### Region extender (src/docs/implementing-tutorial/emdeer.py, lines 119-137)

The per-index body is `extendText` below, returning the possibly
rewritten line and the new flag: a blank line whose flag is true is
rewritten to the bare text marker.  The forward loop (`sweepLines` /
`sweepFlag`) is seeded `true`.  The backward loop walks indices `N-1`
down to `0` threading the flag; `bsweepFlag prev rest` is the flag
reaching the current line after the lines to its right have been
processed with right-end seed `prev`, and `bsweepLines` collects the
rewritten lines.  NOTE: the source's backward loop assigns `True` to
`previousLineWasText`, a dead variable, and then calls
`extendText(i, prevLineWasText)` with the other variable, so the seed
actually used by the backward pass is the flag left over from the
forward pass; `extendAll` reflects that. -/

def extendText (prev : Bool) (s : String) : String × Bool :=
  if isBlank s && prev then (textMarker, true) else (s, isText s)

def sweepLines (prev : Bool) : List String → List String
  | [] => []
  | s :: rest => (extendText prev s).1 :: sweepLines (extendText prev s).2 rest

def sweepFlag (prev : Bool) : List String → Bool
  | [] => prev
  | s :: rest => sweepFlag (extendText prev s).2 rest

def bsweepFlag (prev : Bool) : List String → Bool
  | [] => prev
  | s :: rest => (extendText (bsweepFlag prev rest) s).2

def bsweepLines (prev : Bool) : List String → List String
  | [] => []
  | s :: rest => (extendText (bsweepFlag prev rest) s).1 :: bsweepLines prev rest

/-- The two-pass region extension exactly as the code runs it: forward
sweep seeded `true`, backward sweep seeded with the forward sweep's
leftover flag. -/
def extendAll (xs : List String) : List String :=
  bsweepLines (sweepFlag true xs) (sweepLines true xs)

/-- Modelled from the spec: the two-pass extension as section 4.3 of the
spec describes it, with the backward sweep "reseeded true again".  Used
only to compare the spec's description against `extendAll`. -/
def extendAllReseeded (xs : List String) : List String :=
  bsweepLines true (sweepLines true xs)

/-! ### Emitter and transducer (src/docs/implementing-tutorial/emdeer.py, lines 143-196)

Each call of the Python `outputLine` appends one line to the output
document.  We tag each emitted line with the call site that produced it:
`fenceOpen` for the `codeBegin` emission, `fenceClose` for the `codeEnd`
emission, and `line s` for every other emission (verbatim code lines and
the text path's lines).  `render` recovers the literal emitted string,
so the event list carries exactly the same information as the Python
output plus the provenance of the fence markers. -/

def codeBegin : String := "```c++"

def codeEnd : String := "```"

inductive OutEvent where
  | fenceOpen : OutEvent
  | fenceClose : OutEvent
  | line : String → OutEvent
deriving DecidableEq

/-- The literal string `outputLine` wrote for each event. -/
def render : OutEvent → String
  | .fenceOpen => codeBegin
  | .fenceClose => codeEnd
  | .line s => s

/-- Emitter `outputText(s)` (lines 150-161): block substitution on the
text path; `blocks` is the `outputBlocks` dict. -/
def outputText (blocks : List (String × List String)) (s : String) : List OutEvent :=
  match blocks.lookup (pyStrip s) with
  | some b =>
      OutEvent.line (">" ++ pyStrip s ++ ":") :: OutEvent.line "> ```" ::
        (b.map fun x => OutEvent.line ("> " ++ x)) ++ [OutEvent.line "> ```"]
  | none => [OutEvent.line s]

/-- The transducer state: the Python variables `isOutputting` and
`savedOutputting` (both strings; initially `"text"` and `""`). -/
structure TState where
  isOutputting : String
  savedOutputting : String
deriving DecidableEq

def initT : TState := ⟨"text", ""⟩

/-- One iteration of the main loop (lines 171-194), for the current line
`s`.  Returns the new state and the events emitted by this iteration. -/
def stepLine (blocks : List (String × List String)) (st : TState) (s : String) :
    TState × List OutEvent :=
  if st.isOutputting = "hidden" then
    if isEndHide s then ({ st with isOutputting := st.savedOutputting }, [])
    else (st, [])
  else if st.isOutputting = "text" then
    if isBeginHide s then (⟨"hidden", st.isOutputting⟩, [])
    else if isText s then (st, outputText blocks (stripTextMarker s s))
    else (⟨"code", st.savedOutputting⟩, [.fenceOpen, .line s])
  else -- the remaining tag is "code"
    if isBeginHide s then (⟨"hidden", st.isOutputting⟩, [])
    else if isCode s then (st, [.line s])
    else (⟨"text", st.savedOutputting⟩,
          .fenceClose :: outputText blocks (stripTextMarker s s))

/-- The main loop over all (extended) source lines, from a given state. -/
def runLines (blocks : List (String × List String)) (st : TState) :
    List String → TState × List OutEvent
  | [] => (st, [])
  | s :: rest =>
    ((runLines blocks (stepLine blocks st s).1 rest).1,
     (stepLine blocks st s).2 ++ (runLines blocks (stepLine blocks st s).1 rest).2)

/-- The whole transducer output, including the implicit end-of-stream
fence close (lines 195-196). -/
def transduce (blocks : List (String × List String)) (lines : List String) :
    List OutEvent :=
  (runLines blocks initT lines).2 ++
    (if (runLines blocks initT lines).1.isOutputting = "code"
     then [OutEvent.fenceClose] else [])

/-- Number of code-fence-open markers the transducer emitted. -/
def countOpen (es : List OutEvent) : Nat :=
  es.countP fun e => e == OutEvent.fenceOpen

/-- Number of code-fence-close markers the transducer emitted. -/
def countClose (es : List OutEvent) : Nat :=
  es.countP fun e => e == OutEvent.fenceClose

/-- Reachable transducer states: `isOutputting` is one of the three state
tags, and while hidden the saved state is `"text"` or `"code"`. -/
def WT (st : TState) : Prop :=
  (st.isOutputting = "text" ∨ st.isOutputting = "code" ∨ st.isOutputting = "hidden")
  ∧ (st.isOutputting = "hidden" →
      st.savedOutputting = "text" ∨ st.savedOutputting = "code")

/-- Number of currently dangling fence opens: one while in `"code"`, and
one while hidden with `"code"` saved (the open fence survives the hide
region). -/
def fenceDebt (st : TState) : Nat :=
  if st.isOutputting = "code" ∨
      (st.isOutputting = "hidden" ∧ st.savedOutputting = "code")
  then 1 else 0

/-- A forward sweep with seed `prev` rewrites nothing in `xs`. -/
def SweepFix : Bool → List String → Prop
  | _, [] => True
  | prev, s :: rest => (isBlank s && prev) = false ∧ SweepFix (isText s) rest

/-! ### A few sanity examples (kernel-checked) -/

example : isBlank "   " = true := by decide
example : isBlank "/// " = false := by decide
example : isText "  ///" = true := by decide
example : isText "x" = false := by decide
example : stripTextMarker "  ///" "  ///" = "/" := by decide

/-! ### Basic facts about the string primitives -/

theorem trimChars_eq_nil_iff (l : List Char) :
    trimChars l = [] ↔ ∀ c ∈ l, isSpaceChar c = true := by
  unfold trimChars
  rw [List.reverse_eq_nil_iff, List.dropWhile_eq_nil_iff]
  constructor
  · intro h c hc
    rcases List.mem_append.1 (by
        rw [List.takeWhile_append_dropWhile (p := isSpaceChar)] ; exact hc :
        c ∈ l.takeWhile isSpaceChar ++ l.dropWhile isSpaceChar) with h1 | h1
    · exact List.mem_takeWhile_imp h1
    · exact h c (List.mem_reverse.2 h1)
  · intro h c hc
    exact h c (List.dropWhile_subset _ (List.mem_reverse.1 hc))

theorem pyStrip_eq_empty_iff (s : String) :
    pyStrip s = "" ↔ ∀ c ∈ s.data, isSpaceChar c = true := by
  rw [← trimChars_eq_nil_iff]
  constructor
  · intro h
    have := congrArg String.data h
    simpa [pyStrip] using this
  · intro h
    simp [pyStrip, h]

theorem pyStrip_ne_empty_of_mem (s : String) (c : Char) (hc : c ∈ s.data)
    (hns : isSpaceChar c = false) : pyStrip s ≠ "" := by
  intro h
  have := (pyStrip_eq_empty_iff s).1 h c hc
  simp [hns] at this

/-- A blank line is never a text line. -/
theorem isText_eq_false_of_isBlank (s : String) (h : isBlank s = true) :
    isText s = false := by
  have hstrip : pyStrip s = "" := by
    have := h
    simpa [isBlank] using this
  have hall : ∀ c ∈ s.data, isSpaceChar c = true := (pyStrip_eq_empty_iff s).1 hstrip
  simp only [isText, Bool.or_eq_false_iff]
  constructor
  · by_contra hpre
    have hpre' : pyStartsWith s textMarker = true := by
      revert hpre ; cases pyStartsWith s textMarker <;> simp
    have hpref : textMarker.data <+: s.data := by
      simpa [pyStartsWith] using hpre'
    rcases hpref with ⟨t, ht⟩
    have hmem : '/' ∈ s.data := by
      rw [← ht]
      exact List.mem_append.2 (Or.inl (by decide))
    have := hall '/' hmem
    simp [isSpaceChar] at this
  · rw [hstrip]
    decide

/-- A text line is never blank (contrapositive form). -/
theorem isBlank_eq_false_of_isText (s : String) (h : isText s = true) :
    isBlank s = false := by
  by_contra hb
  have hb' : isBlank s = true := by revert hb ; cases isBlank s <;> simp
  rw [isText_eq_false_of_isBlank s hb'] at h
  exact Bool.false_ne_true h

theorem isEndHide_eq_false_of_isBeginHide (s : String) (h : isBeginHide s = true) :
    isEndHide s = false := by
  have hstrip : pyStrip s = "MD_BEGIN_HIDE" := by simpa [isBeginHide] using h
  simp [isEndHide, hstrip]

theorem mem_of_mem_stripBlankLines (xs : List String) (l : String)
    (h : l ∈ stripBlankLines xs) : l ∈ xs := by
  unfold stripBlankLines at h
  rw [List.mem_reverse] at h
  have h1 : l ∈ (xs.dropWhile isBlank).reverse := List.dropWhile_subset _ h
  rw [List.mem_reverse] at h1
  exact List.dropWhile_subset _ h1

theorem lookup_dinsert_self (k : String) (v : List String)
    (tbl : List (String × List String)) : (dinsert k v tbl).lookup k = some v := by
  induction tbl with
  | nil => simp [dinsert]
  | cons p rest ih =>
    obtain ⟨k', v'⟩ := p
    by_cases h : k' = k
    · simp [dinsert, h]
    · have hne : (k == k') = false := beq_eq_false_iff_ne.2 (Ne.symm h)
      simp [dinsert, h, List.lookup, hne, ih]

theorem lookup_dinsert_ne (k k' : String) (v : List String)
    (tbl : List (String × List String)) (h : k' ≠ k) :
    (dinsert k v tbl).lookup k' = tbl.lookup k' := by
  induction tbl with
  | nil => simp [dinsert, List.lookup, beq_eq_false_iff_ne.2 h]
  | cons p rest ih =>
    obtain ⟨k0, v0⟩ := p
    by_cases h0 : k0 = k
    · subst h0
      simp [dinsert, List.lookup, beq_eq_false_iff_ne.2 h]
    · by_cases h1 : k' = k0
      · subst h1
        simp [dinsert, h0, List.lookup]
      · simp [dinsert, h0, List.lookup, beq_eq_false_iff_ne.2 h1, ih]

theorem mem_keys_dinsert (k k' : String) (v : List String)
    (tbl : List (String × List String))
    (h : k' ∈ (dinsert k v tbl).map Prod.fst) :
    k' = k ∨ k' ∈ tbl.map Prod.fst := by
  induction tbl with
  | nil => simpa [dinsert] using h
  | cons p rest ih =>
    obtain ⟨k0, v0⟩ := p
    by_cases h0 : k0 = k
    · subst h0
      rcases (by simpa [dinsert] using h : k' = k0 ∨ k' ∈ rest.map Prod.fst) with h1 | h1
      · exact Or.inl h1
      · exact Or.inr (by simp [h1])
    · rcases (by simpa [dinsert, h0] using h : k' = k0 ∨ k' ∈ (dinsert k v rest).map Prod.fst) with h1 | h1
      · exact Or.inr (by simp [h1])
      · rcases ih h1 with h2 | h2
        · exact Or.inl h2
        · exact Or.inr (by simp [h2])

theorem nodup_keys_dinsert (k : String) (v : List String)
    (tbl : List (String × List String)) (h : (tbl.map Prod.fst).Nodup) :
    ((dinsert k v tbl).map Prod.fst).Nodup := by
  induction tbl with
  | nil => simp [dinsert]
  | cons p rest ih =>
    obtain ⟨k0, v0⟩ := p
    simp only [List.map_cons, List.nodup_cons] at h
    by_cases h0 : k0 = k
    · subst h0
      have hd : dinsert k0 v ((k0, v0) :: rest) = (k0, v) :: rest := by
        simp [dinsert]
      rw [hd]
      simp only [List.map_cons, List.nodup_cons]
      exact h
    · simp only [dinsert, if_neg h0, List.map_cons, List.nodup_cons]
      refine ⟨fun hmem => ?_, ih h.2⟩
      rcases mem_keys_dinsert k k0 v rest hmem with h1 | h1
      · exact h0 h1
      · exact h.1 h1

example : isDelimLine "# [out] #" = true := by decide
example : delimKey "# [out] #" = "[out]" := by decide
example : outputBlocks ["# [k] #", "x"] = [("[k]", ["x"])] := by decide

example :
    tutorialOutputBlocks ["@OUTPUT x", "a"] = [("@OUTPUT x", ["@OUTPUT x", "a"])] := by
  decide

example : extendAll ["x", ""] = ["x", ""] := by decide
example : extendAllReseeded ["x", ""] = ["x", "/// "] := by decide
example : extendAll ["", "a"] = ["/// ", "a"] := by decide

example :
    transduce [] ["/// hi", "int x;"] =
      [.line "hi", .fenceOpen, .line "int x;", .fenceClose] := by decide
example :
    transduce [] ["int x;", "MD_BEGIN_HIDE", "secret", "MD_END_HIDE", "int y;"] =
      [.fenceOpen, .line "int x;", .line "int y;", .fenceClose] := by decide
example : countOpen (transduce [] ["int x;", "MD_BEGIN_HIDE"]) = 1 := by decide
example : countClose (transduce [] ["int x;", "MD_BEGIN_HIDE"]) = 0 := by decide

/-! ### Well-formedness of reachable transducer states -/

theorem initT_wt : WT initT := by
  constructor
  · exact Or.inl rfl
  · intro h
    simp [initT] at h

theorem stepLine_wt (blocks : List (String × List String)) (st : TState) (s : String)
    (h : WT st) : WT (stepLine blocks st s).1 := by
  obtain ⟨h1, h2⟩ := h
  unfold stepLine
  by_cases hh : st.isOutputting = "hidden"
  · rw [if_pos hh]
    by_cases he : isEndHide s
    · rw [if_pos he]
      rcases h2 hh with h3 | h3 <;> simp [WT, h3]
    · rw [if_neg he]
      exact ⟨h1, h2⟩
  · rw [if_neg hh]
    by_cases ht : st.isOutputting = "text"
    · rw [if_pos ht]
      by_cases hb : isBeginHide s
      · rw [if_pos hb]
        simp [WT, ht]
      · rw [if_neg hb]
        by_cases hx : isText s
        · rw [if_pos hx]
          exact ⟨h1, h2⟩
        · rw [if_neg hx]
          simp [WT]
    · rw [if_neg ht]
      have hcode : st.isOutputting = "code" := by tauto
      by_cases hb : isBeginHide s
      · rw [if_pos hb]
        simp [WT, hcode]
      · rw [if_neg hb]
        by_cases hc : isCode s
        · rw [if_pos hc]
          exact ⟨h1, h2⟩
        · rw [if_neg hc]
          simp [WT]

theorem runLines_wt (blocks : List (String × List String)) :
    ∀ (ls : List String) (st : TState), WT st → WT (runLines blocks st ls).1 := by
  intro ls
  induction ls with
  | nil => intro st h ; exact h
  | cons s rest ih =>
    intro st h
    exact ih (stepLine blocks st s).1 (stepLine_wt blocks st s h)

/-- C8: throughout every transducer run, whenever the current state is
`"hidden"` the saved prior state is `"text"` or `"code"`, never
`"hidden"`; and a hide-begin marker seen while already hidden changes no
state, overwrites no saved state, and emits nothing.  (For any point of
any run, the state there is the final state of the run on the truncated
input, so quantifying over all inputs covers every intermediate state.) -/
theorem hidden_saved_state_invariant (blocks : List (String × List String))
    (lines : List String) (st : TState) (s : String)
    (hh : st.isOutputting = "hidden") (hb : isBeginHide s = true) :
    ((runLines blocks initT lines).1.isOutputting = "hidden" →
      (runLines blocks initT lines).1.savedOutputting = "text" ∨
        (runLines blocks initT lines).1.savedOutputting = "code")
    ∧ stepLine blocks st s = (st, []) := by
  constructor
  · exact (runLines_wt blocks lines initT initT_wt).2
  · unfold stepLine
    rw [if_pos hh, if_neg (by simp [isEndHide_eq_false_of_isBeginHide s hb])]

/-- Witness for C8 at a concrete input. -/
theorem hidden_saved_state_invariant_witness :
    ((runLines [] initT ["MD_BEGIN_HIDE"]).1.isOutputting = "hidden" →
      (runLines [] initT ["MD_BEGIN_HIDE"]).1.savedOutputting = "text" ∨
        (runLines [] initT ["MD_BEGIN_HIDE"]).1.savedOutputting = "code")
    ∧ stepLine [] ⟨"hidden", "code"⟩ "MD_BEGIN_HIDE" = (⟨"hidden", "code"⟩, []) :=
  hidden_saved_state_invariant [] ["MD_BEGIN_HIDE"] ⟨"hidden", "code"⟩
    "MD_BEGIN_HIDE" rfl (by decide)

/-! ### C3: block substitution on the text path -/

/-- C3: if the stripped text line equals a key of the block table, the
text path emits exactly that block's stored lines, verbatim and in
order, each behind a blockquote marker, enclosed in blockquoted fence
lines (preceded by the `>key:` header); otherwise it emits the line
itself as one plain line. -/
theorem outputText_substitution (blocks : List (String × List String)) (s : String) :
    (∀ b, blocks.lookup (pyStrip s) = some b →
      outputText blocks s =
        OutEvent.line (">" ++ pyStrip s ++ ":") :: OutEvent.line "> ```" ::
          (b.map fun x => OutEvent.line ("> " ++ x)) ++ [OutEvent.line "> ```"])
    ∧ (blocks.lookup (pyStrip s) = none → outputText blocks s = [OutEvent.line s]) := by
  constructor
  · intro b hb
    simp [outputText, hb]
  · intro hb
    simp [outputText, hb]

/-- Witness for C3 at a concrete table and line. -/
theorem outputText_substitution_witness :
    ([("k", ["hello", "world"])].lookup (pyStrip " k ") = some ["hello", "world"]
      ∧ outputText [("k", ["hello", "world"])] " k " =
          [OutEvent.line ">k:", OutEvent.line "> ```", OutEvent.line "> hello",
           OutEvent.line "> world", OutEvent.line "> ```"])
    ∧ ([("k", ["hello", "world"])].lookup (pyStrip "nope") = none
      ∧ outputText [("k", ["hello", "world"])] "nope" = [OutEvent.line "nope"]) := by
  have h1 := (outputText_substitution [("k", ["hello", "world"])] " k ").1
      ["hello", "world"] (by decide)
  have h2 := (outputText_substitution [("k", ["hello", "world"])] "nope").2 (by decide)
  refine ⟨⟨by decide, ?_⟩, ⟨by decide, h2⟩⟩
  rw [h1]
  decide

/-! ### C10: the prefix-stripping helper ignores its formal parameter -/

/-- C10: `stripTextPrefix` slices the loop's line variable and ignores
its argument: the result is always the current line minus its first
`len(textPrefix) = 4` characters; hence the line `"  ///"` (accepted as
text because it strips to the bare marker) is emitted by the text path
as the non-empty marker-character residue `"/"`, not as an empty prose
line. -/
theorem stripTextMarker_ignores_argument :
    (∀ s x y : String, stripTextMarker s x = stripTextMarker s y)
    ∧ (∀ s x : String, (stripTextMarker s x).data = s.data.drop 4)
    ∧ isText "  ///" = true
    ∧ stepLine [] initT "  ///" = (initT, [OutEvent.line "/"])
    ∧ "/" ≠ "" := by
  refine ⟨fun s x y => rfl, fun s x => ?_, by decide, by decide, by decide⟩
  have h4 : textMarker.length = 4 := by decide
  simp [stripTextMarker, pySliceFrom, h4]

/-! ### C2: hide transparency -/

theorem runLines_append (blocks : List (String × List String)) :
    ∀ (xs ys : List String) (st : TState),
      runLines blocks st (xs ++ ys) =
        ((runLines blocks (runLines blocks st xs).1 ys).1,
         (runLines blocks st xs).2 ++ (runLines blocks (runLines blocks st xs).1 ys).2) := by
  intro xs
  induction xs with
  | nil => intro ys st ; simp [runLines]
  | cons s rest ih =>
    intro ys st
    simp only [List.cons_append, runLines, List.append_eq]
    rw [ih ys (stepLine blocks st s).1]
    simp [List.append_assoc]

/-- While hidden, every line other than a hide-end line is consumed with
no state change and no output. -/
theorem runLines_hidden (blocks : List (String × List String)) :
    ∀ (ls : List String) (st : TState), st.isOutputting = "hidden" →
      (∀ l ∈ ls, isEndHide l = false) → runLines blocks st ls = (st, []) := by
  intro ls
  induction ls with
  | nil => intro st _ _ ; rfl
  | cons s rest ih =>
    intro st hh hall
    have hstep : stepLine blocks st s = (st, []) := by
      unfold stepLine
      rw [if_pos hh, if_neg (by simp [hall s (by simp)])]
    simp only [runLines, hstep]
    rw [ih st hh fun l hl => hall l (by simp [hl])]
    simp

/-- A whole hide region (begin marker, interior, end marker), entered
from `"text"` or `"code"`, emits nothing and lands back in the entering
state (with the saved-state field recording that entering state). -/
theorem runLines_hide_segment (blocks : List (String × List String))
    (st : TState) (mid : List String) (b e : String)
    (hb : isBeginHide b = true) (he : isEndHide e = true)
    (hst : st.isOutputting = "text" ∨ st.isOutputting = "code")
    (hmid : ∀ l ∈ mid, isEndHide l = false) :
    runLines blocks st (b :: (mid ++ [e])) =
      (⟨st.isOutputting, st.isOutputting⟩, []) := by
  have hstep : stepLine blocks st b = (⟨"hidden", st.isOutputting⟩, []) := by
    unfold stepLine
    rcases hst with h | h
    · rw [if_neg (by simp [h]), if_pos h, if_pos hb]
    · rw [if_neg (by simp [h]), if_neg (by simp [h]), if_pos hb]
  have hmidrun : runLines blocks (⟨"hidden", st.isOutputting⟩ : TState) mid =
      (⟨"hidden", st.isOutputting⟩, []) :=
    runLines_hidden blocks mid _ rfl hmid
  have hend : stepLine blocks (⟨"hidden", st.isOutputting⟩ : TState) e =
      (⟨st.isOutputting, st.isOutputting⟩, []) := by
    unfold stepLine
    rw [if_pos rfl, if_pos he]
  simp only [runLines, hstep]
  rw [runLines_append]
  simp only [hmidrun]
  simp [runLines, hend]

/-- C2: lines strictly inside a matching hide-begin/hide-end pair, and
the markers themselves, contribute nothing to the output, and the
transducer state (`isOutputting`) immediately after the hide-end line
equals the state immediately before the hide-begin line: the whole
output is that of the prefix followed by that of the suffix resumed in
the pre-hide state. -/
theorem hide_transparency (blocks : List (String × List String))
    (pre mid post : List String) (b e : String)
    (hb : isBeginHide b = true) (he : isEndHide e = true)
    (hst : (runLines blocks initT pre).1.isOutputting = "text" ∨
           (runLines blocks initT pre).1.isOutputting = "code")
    (hmid : ∀ l ∈ mid, isEndHide l = false) :
    (runLines blocks initT (pre ++ b :: (mid ++ e :: post))).2 =
      (runLines blocks initT pre).2 ++
        (runLines blocks
          (⟨(runLines blocks initT pre).1.isOutputting,
            (runLines blocks initT pre).1.isOutputting⟩ : TState) post).2
    ∧ (runLines blocks initT (pre ++ b :: (mid ++ [e]))).1.isOutputting =
        (runLines blocks initT pre).1.isOutputting := by
  have hsplit : b :: (mid ++ e :: post) = (b :: (mid ++ [e])) ++ post := by
    simp
  have hseg := runLines_hide_segment blocks (runLines blocks initT pre).1 mid b e
    hb he hst hmid
  constructor
  · rw [hsplit, ← List.append_assoc,
        runLines_append blocks (pre ++ (b :: (mid ++ [e]))) post,
        runLines_append blocks pre (b :: (mid ++ [e])), hseg]
    simp
  · rw [runLines_append blocks pre (b :: (mid ++ [e])), hseg]

/-- Witness for C2 at a concrete input. -/
theorem hide_transparency_witness :
    ((runLines [] initT (["int x;"] ++ "MD_BEGIN_HIDE" :: (["secret"] ++ "MD_END_HIDE" :: ["int y;"]))).2 =
      (runLines [] initT ["int x;"]).2 ++
        (runLines []
          (⟨(runLines [] initT ["int x;"]).1.isOutputting,
            (runLines [] initT ["int x;"]).1.isOutputting⟩ : TState) ["int y;"]).2
    ∧ (runLines [] initT (["int x;"] ++ "MD_BEGIN_HIDE" :: (["secret"] ++ ["MD_END_HIDE"]))).1.isOutputting =
        (runLines [] initT ["int x;"]).1.isOutputting) :=
  hide_transparency [] ["int x;"] ["secret"] ["int y;"] "MD_BEGIN_HIDE" "MD_END_HIDE"
    (by decide) (by decide) (by decide) (by decide)

/-! ### C1: fence balance -/

theorem countOpen_outputText (blocks : List (String × List String)) (s : String) :
    countOpen (outputText blocks s) = 0 := by
  unfold outputText countOpen
  cases h : blocks.lookup (pyStrip s) with
  | none => simp
  | some b =>
    simp only [List.countP_cons, List.countP_append]
    rw [List.countP_eq_zero.2 (by
      intro e he
      rcases List.mem_map.1 he with ⟨x, _, rfl⟩
      simp)]
    simp

theorem countClose_outputText (blocks : List (String × List String)) (s : String) :
    countClose (outputText blocks s) = 0 := by
  unfold outputText countClose
  cases h : blocks.lookup (pyStrip s) with
  | none => simp
  | some b =>
    simp only [List.countP_cons, List.countP_append]
    rw [List.countP_eq_zero.2 (by
      intro e he
      rcases List.mem_map.1 he with ⟨x, _, rfl⟩
      simp)]
    simp

theorem stepLine_balance (blocks : List (String × List String)) (st : TState)
    (s : String) (h : WT st) :
    countOpen (stepLine blocks st s).2 + fenceDebt st =
      countClose (stepLine blocks st s).2 + fenceDebt (stepLine blocks st s).1 := by
  obtain ⟨h1, h2⟩ := h
  unfold stepLine
  by_cases hh : st.isOutputting = "hidden"
  · rw [if_pos hh]
    by_cases he : isEndHide s
    · rw [if_pos he]
      rcases h2 hh with h3 | h3 <;> simp [fenceDebt, countOpen, countClose, hh, h3]
    · rw [if_neg he]
      simp [countOpen, countClose]
  · rw [if_neg hh]
    by_cases ht : st.isOutputting = "text"
    · rw [if_pos ht]
      by_cases hb : isBeginHide s
      · rw [if_pos hb]
        simp [fenceDebt, countOpen, countClose, ht]
      · rw [if_neg hb]
        by_cases hx : isText s
        · rw [if_pos hx]
          have ho := countOpen_outputText blocks (stripTextMarker s s)
          have hc := countClose_outputText blocks (stripTextMarker s s)
          simp only [countOpen, countClose] at ho hc
          simp [countOpen, countClose, ho, hc]
        · rw [if_neg hx]
          simp [fenceDebt, countOpen, countClose, ht]
    · rw [if_neg ht]
      have hcode : st.isOutputting = "code" := by tauto
      by_cases hb : isBeginHide s
      · rw [if_pos hb]
        simp [fenceDebt, countOpen, countClose, hcode]
      · rw [if_neg hb]
        by_cases hc : isCode s
        · rw [if_pos hc]
          simp [fenceDebt, countOpen, countClose]
        · rw [if_neg hc]
          have ho := countOpen_outputText blocks (stripTextMarker s s)
          have hcc := countClose_outputText blocks (stripTextMarker s s)
          simp only [countOpen, countClose] at ho hcc
          simp [fenceDebt, countOpen, countClose, hcode, ho, hcc, List.countP_cons]

theorem runLines_balance (blocks : List (String × List String)) :
    ∀ (ls : List String) (st : TState), WT st →
      countOpen (runLines blocks st ls).2 + fenceDebt st =
        countClose (runLines blocks st ls).2 + fenceDebt (runLines blocks st ls).1 := by
  intro ls
  induction ls with
  | nil => intro st _ ; rfl
  | cons s rest ih =>
    intro st h
    have hstep := stepLine_balance blocks st s h
    have hrest := ih (stepLine blocks st s).1 (stepLine_wt blocks st s h)
    simp only [runLines, countOpen, countClose, List.countP_append] at *
    omega

/-- C1 (amended): the number of fence-open markers in the transducer
output (including the implicit end-of-stream close) equals the number of
fence-close markers, plus one exactly when the input ends while the
transducer is inside a hide region that was entered from the Code state
— in that one situation the open fence dangles, because the final flush
only fires when `isOutputting` is literally `"code"`. -/
theorem fence_balance_characterized (blocks : List (String × List String))
    (lines : List String) :
    countOpen (transduce blocks lines) =
      countClose (transduce blocks lines) +
        (if (runLines blocks initT lines).1.isOutputting = "hidden" ∧
            (runLines blocks initT lines).1.savedOutputting = "code"
         then 1 else 0) := by
  have hwt := runLines_wt blocks lines initT initT_wt
  have hbal := runLines_balance blocks lines initT initT_wt
  have hdinit : fenceDebt initT = 0 := by decide
  rw [hdinit] at hbal
  obtain ⟨hw1, hw2⟩ := hwt
  unfold transduce
  rcases hw1 with h | h | h
  · have hd : fenceDebt (runLines blocks initT lines).1 = 0 := by
      simp [fenceDebt, h]
    rw [hd] at hbal
    simp only [countOpen, countClose] at hbal ⊢
    simp [h, List.countP_append] at hbal ⊢
    omega
  · have hd : fenceDebt (runLines blocks initT lines).1 = 1 := by
      simp [fenceDebt, h]
    rw [hd] at hbal
    simp only [countOpen, countClose] at hbal ⊢
    simp [h, List.countP_append, List.countP_cons] at hbal ⊢
    omega
  · rcases hw2 h with h3 | h3
    · have hd : fenceDebt (runLines blocks initT lines).1 = 0 := by
        simp [fenceDebt, h, h3]
      rw [hd] at hbal
      simp only [countOpen, countClose] at hbal ⊢
      simp [h, h3, List.countP_append] at hbal ⊢
      omega
    · have hd : fenceDebt (runLines blocks initT lines).1 = 1 := by
        simp [fenceDebt, h, h3]
      rw [hd] at hbal
      simp only [countOpen, countClose] at hbal ⊢
      simp [h, h3, List.countP_append] at hbal ⊢
      omega

/-- Counterexample to C1 as stated: an input ending inside a hide region
entered from Code leaves one more fence-open than fence-close in the
output (no implicit close fires, because the final state is `"hidden"`,
not `"code"`). -/
theorem fence_balance_counterexample :
    countOpen (transduce [] ["int x;", "MD_BEGIN_HIDE"]) ≠
      countClose (transduce [] ["int x;", "MD_BEGIN_HIDE"]) := by
  decide

/-! ### Every delimiter line opens a non-empty key -/

theorem trimChars_decomp (l : List Char) :
    ∃ w1 w2, l = w1 ++ (trimChars l ++ w2)
      ∧ (∀ c ∈ w1, isSpaceChar c = true) ∧ (∀ c ∈ w2, isSpaceChar c = true) := by
  refine ⟨l.takeWhile isSpaceChar,
    ((l.dropWhile isSpaceChar).reverse.takeWhile isSpaceChar).reverse, ?_, ?_, ?_⟩
  · have h1 := (List.takeWhile_append_dropWhile (p := isSpaceChar) (l := l)).symm
    have h2 := (List.takeWhile_append_dropWhile (p := isSpaceChar)
      (l := (l.dropWhile isSpaceChar).reverse)).symm
    have h3 := congrArg List.reverse h2
    rw [List.reverse_reverse, List.reverse_append] at h3
    conv_lhs => rw [h1, h3]
    rfl
  · intro c hc
    exact List.mem_takeWhile_imp hc
  · intro c hc
    rw [List.mem_reverse] at hc
    exact List.mem_takeWhile_imp hc

theorem mem_drop_one_dropLast (l : List Char) (c : Char) (A B : List Char)
    (h : l = A ++ c :: B) (hA : A ≠ []) (hB : B ≠ []) :
    c ∈ (l.drop 1).dropLast := by
  subst h
  obtain ⟨a, A', rfl⟩ : ∃ a A', A = a :: A' := by
    cases A with
    | nil => exact absurd rfl hA
    | cons a A' => exact ⟨a, A', rfl⟩
  simp only [List.cons_append, List.drop_succ_cons, List.drop_zero]
  rw [List.dropLast_append_cons, List.dropLast_cons_of_ne_nil hB]
  exact List.mem_append_right _ (List.mem_cons_self _ _)

/-- Every line passing the delimiter test opens a key that still
contains a non-whitespace character (at least the `[`), hence is
non-empty: `s[1:-1]` can shave at most one character off each end of the
stripped core `# [` … `] #`. -/
theorem delimKey_ne_empty (s : String) (h : isDelimLine s = true) : delimKey s ≠ "" := by
  have hparts : pyStartsWith (pyStrip s) "# [" = true ∧ pyEndsWith (pyStrip s) "] #" = true := by
    simpa [isDelimLine, Bool.and_eq_true] using h
  have hpre : ("# [" : String).data <+: (pyStrip s).data := by
    have := hparts.1
    simpa [pyStartsWith] using this
  have hsuf : ("] #" : String).data <:+ (pyStrip s).data := by
    have := hparts.2
    simpa [pyEndsWith] using this
  obtain ⟨r, hr⟩ := hpre
  obtain ⟨q, hq⟩ := hsuf
  have hstripdata : (pyStrip s).data = trimChars s.data := rfl
  rw [hstripdata] at hr hq
  have hdl : ("# [" : String).data = ['#', ' ', '['] := rfl
  have hdr : ("] #" : String).data = [']', ' ', '#'] := rfl
  rw [hdl] at hr
  rw [hdr] at hq
  have hrne : r ≠ [] := by
    intro h0
    subst h0
    rw [List.append_nil] at hr
    rw [← hr] at hq
    have hlast := congrArg List.getLast? hq
    rw [List.getLast?_append] at hlast
    simp at hlast
  obtain ⟨w1, w2, hdecomp, _, _⟩ := trimChars_decomp s.data
  have hfull : s.data = (w1 ++ ['#', ' ']) ++ ('[' :: (r ++ w2)) := by
    rw [hdecomp, ← hr]
    simp
  have hmem : '[' ∈ ((s.data.drop 1).dropLast) := by
    refine mem_drop_one_dropLast s.data '[' (w1 ++ ['#', ' ']) (r ++ w2) hfull
      (by simp) ?_
    simp only [ne_eq, List.append_eq_nil]
    intro h0
    exact hrne h0.1
  unfold delimKey
  apply pyStrip_ne_empty_of_mem (pySliceOneToLast s) '['
  · simpa [pySliceOneToLast] using hmem
  · decide

/-! ### Parser loop lemmas -/

/-- Delimiter-free lines just accumulate. -/
theorem foldl_parseStep_nodelim :
    ∀ (ls : List String) (st : PState), (∀ l ∈ ls, isDelimLine l = false) →
      ls.foldl parseStep st = ⟨st.tbl, st.key, st.acc ++ ls⟩ := by
  intro ls
  induction ls with
  | nil =>
    intro st _
    obtain ⟨tbl, key, acc⟩ := st
    simp
  | cons s rest ih =>
    intro st hall
    have hs : isDelimLine s = false := hall s (by simp)
    simp only [List.foldl_cons]
    rw [show parseStep st s = ⟨st.tbl, st.key, st.acc ++ [s]⟩ from by
      simp [parseStep, hs]]
    rw [ih _ fun l hl => hall l (by simp [hl])]
    simp

/-- C4 (amended): a delimiter line `# [out] #` opens the block keyed
`"[out]"` — `s[1:-1].strip()` keeps the brackets — and a trailing
delimiter with the same key starts a new, empty block under that key, so
at end of input the empty block overwrites the earlier content. -/
theorem bracket_key_amended (content : List String)
    (h : ∀ l ∈ content, isDelimLine l = false) :
    outputBlocks ("# [out] #" :: content) = [("[out]", stripBlankLines content)]
    ∧ outputBlocks (("# [out] #" :: content) ++ ["# [out] #"]) = [("[out]", [])] := by
  have hstep : parseStep ⟨[], "", []⟩ "# [out] #" = ⟨[], "[out]", []⟩ := by decide
  have hfold : content.foldl parseStep ⟨[], "[out]", []⟩ = ⟨[], "[out]", content⟩ := by
    have := foldl_parseStep_nodelim content ⟨[], "[out]", []⟩ h
    simpa using this
  have hd : isDelimLine "# [out] #" = true := by decide
  have hk : delimKey "# [out] #" = "[out]" := by decide
  constructor
  · unfold outputBlocks
    simp only [List.foldl_cons, hstep, hfold]
    simp [finishTbl, dinsert]
  · unfold outputBlocks
    simp only [List.cons_append, List.foldl_cons, hstep, List.foldl_append, hfold]
    simp only [List.foldl_cons, List.foldl_nil]
    rw [show parseStep ⟨[], "[out]", content⟩ "# [out] #" =
        ⟨[("[out]", stripBlankLines content)], "[out]", []⟩ from by
      simp [parseStep, hd, hk, dinsert]]
    simp [finishTbl, dinsert, stripBlankLines]

/-- Counterexample to C4 as stated: with the example captured lines the
table has no entry `out` at all (the key kept its brackets), and the
entry `[out]` holds `[]`, not `[hello, world]` (the final delimiter
opened a new empty block under the same key, which won at end of
input). -/
theorem bracket_key_counterexample :
    (outputBlocks ["# [out] #", "hello", "world", "# [out] #"]).lookup "out" = none
    ∧ outputBlocks ["# [out] #", "hello", "world", "# [out] #"] = [("[out]", [])] := by
  decide

/-- Witness for the amended C4 at the example content. -/
theorem bracket_key_amended_witness :
    outputBlocks ("# [out] #" :: ["hello", "world"]) =
      [("[out]", ["hello", "world"])]
    ∧ outputBlocks (("# [out] #" :: ["hello", "world"]) ++ ["# [out] #"]) =
      [("[out]", [])] := by
  have h := bracket_key_amended ["hello", "world"] (by decide)
  refine ⟨?_, h.2⟩
  rw [h.1]
  decide

/-! ### C9: stored block keys are never empty -/

theorem parse_keys_ne_empty_aux :
    ∀ (ls : List String) (st : PState), (∀ k ∈ st.tbl.map Prod.fst, k ≠ "") →
      ∀ k ∈ (finishTbl (ls.foldl parseStep st)).map Prod.fst, k ≠ "" := by
  intro ls
  induction ls with
  | nil =>
    intro st hst k hk
    simp only [List.foldl_nil] at hk
    unfold finishTbl at hk
    by_cases hkey : st.key = ""
    · rw [if_pos hkey] at hk
      exact hst k hk
    · rw [if_neg hkey] at hk
      rcases mem_keys_dinsert _ _ _ _ hk with h1 | h1
      · subst h1
        exact hkey
      · exact hst k h1
  | cons s rest ih =>
    intro st hst
    simp only [List.foldl_cons]
    apply ih
    intro k hk
    unfold parseStep at hk
    by_cases hd : isDelimLine s
    · rw [if_pos hd] at hk
      simp only at hk
      by_cases hkey : st.key = ""
      · rw [if_pos hkey] at hk
        exact hst k hk
      · rw [if_neg hkey] at hk
        rcases mem_keys_dinsert _ _ _ _ hk with h1 | h1
        · subst h1
          exact hkey
        · exact hst k h1
    · rw [if_neg hd] at hk
      exact hst k hk

theorem lookup_empty_none (tbl : List (String × List String))
    (h : ∀ k ∈ tbl.map Prod.fst, k ≠ "") : tbl.lookup "" = none := by
  rw [List.lookup_eq_none_iff]
  intro p hp
  have := h p.1 (List.mem_map.2 ⟨p, hp, rfl⟩)
  simpa [bne_iff_ne] using Ne.symm this

/-- C9: every key stored by the output-block parser is non-empty (the
flush is guarded by key truthiness and a delimiter always opens a
non-empty key), so a prose line whose content strips to the empty string
never matches a block key and is emitted unchanged by the text path. -/
theorem block_keys_nonempty (ls : List String) (t s : String)
    (ht : isDelimLine t = true) (hs : pyStrip s = "") :
    (∀ k ∈ (outputBlocks ls).map Prod.fst, k ≠ "")
    ∧ delimKey t ≠ ""
    ∧ outputText (outputBlocks ls) s = [OutEvent.line s] := by
  have hkeys : ∀ k ∈ (outputBlocks ls).map Prod.fst, k ≠ "" := by
    unfold outputBlocks
    exact parse_keys_ne_empty_aux ls ⟨[], "", []⟩ (by simp)
  refine ⟨hkeys, delimKey_ne_empty t ht, ?_⟩
  unfold outputText
  rw [hs, lookup_empty_none _ hkeys]

/-- Witness for C9 at a concrete table, delimiter and blank-stripping line. -/
theorem block_keys_nonempty_witness :
    (∀ k ∈ (outputBlocks ["# [k] #", "x"]).map Prod.fst, k ≠ "")
    ∧ delimKey "# [out] #" ≠ ""
    ∧ outputText (outputBlocks ["# [k] #", "x"]) "   " = [OutEvent.line "   "] :=
  block_keys_nonempty ["# [k] #", "x"] "# [out] #" "   " (by decide) (by decide)

/-! ### C7: duplicate keys, last write wins, keys unique -/

/-- If the open key differs from `k` and no remaining delimiter opens
`k`, the run leaves the entry for `k` untouched. -/
theorem lookup_finish_foldl_other :
    ∀ (rest : List String) (tbl : List (String × List String)) (key : String)
      (acc : List String) (k : String), key ≠ k →
      (∀ l ∈ rest, isDelimLine l = true → delimKey l ≠ k) →
      (finishTbl (rest.foldl parseStep ⟨tbl, key, acc⟩)).lookup k = tbl.lookup k := by
  intro rest
  induction rest with
  | nil =>
    intro tbl key acc k hkey _
    simp only [List.foldl_nil]
    unfold finishTbl
    by_cases h0 : key = ""
    · rw [if_pos h0]
    · rw [if_neg h0]
      exact lookup_dinsert_ne _ _ _ _ (Ne.symm hkey)
  | cons s rest ih =>
    intro tbl key acc k hkey hall
    simp only [List.foldl_cons]
    by_cases hd : isDelimLine s
    · rw [show parseStep ⟨tbl, key, acc⟩ s =
          ⟨(if key = "" then tbl else dinsert key (stripBlankLines acc) tbl),
           delimKey s, []⟩ from by simp [parseStep, hd]]
      have hne : delimKey s ≠ k := hall s (by simp) hd
      rw [ih _ _ _ _ hne fun l hl hdl => hall l (by simp [hl]) hdl]
      by_cases h0 : key = ""
      · rw [if_pos h0]
      · rw [if_neg h0]
        exact lookup_dinsert_ne _ _ _ _ (Ne.symm hkey)
    · rw [show parseStep ⟨tbl, key, acc⟩ s = ⟨tbl, key, acc ++ [s]⟩ from by
        simp [parseStep, hd]]
      exact ih _ _ _ _ hkey fun l hl hdl => hall l (by simp [hl]) hdl

/-- If the currently open key is `k` and no remaining delimiter opens
`k` again, the final entry for `k` is the blank-stripped content running
up to the next delimiter (or end of input). -/
theorem lookup_finish_foldl_current :
    ∀ (rest : List String) (tbl : List (String × List String))
      (acc : List String) (k : String), k ≠ "" →
      (∀ l ∈ rest, isDelimLine l = true → delimKey l ≠ k) →
      (finishTbl (rest.foldl parseStep ⟨tbl, k, acc⟩)).lookup k =
        some (stripBlankLines (acc ++ rest.takeWhile fun l => !isDelimLine l)) := by
  intro rest
  induction rest with
  | nil =>
    intro tbl acc k hk _
    simp only [List.foldl_nil, List.takeWhile_nil, List.append_nil]
    unfold finishTbl
    rw [if_neg hk]
    exact lookup_dinsert_self _ _ _
  | cons s rest ih =>
    intro tbl acc k hk hall
    simp only [List.foldl_cons]
    by_cases hd : isDelimLine s
    · rw [show parseStep ⟨tbl, k, acc⟩ s =
          ⟨dinsert k (stripBlankLines acc) tbl, delimKey s, []⟩ from by
        simp [parseStep, hd, hk]]
      rw [show (s :: rest).takeWhile (fun l => !isDelimLine l) = [] from by
        simp [List.takeWhile_cons, hd]]
      rw [List.append_nil]
      have hne : delimKey s ≠ k := hall s (by simp) hd
      rw [lookup_finish_foldl_other rest _ _ _ k hne
        fun l hl hdl => hall l (by simp [hl]) hdl]
      exact lookup_dinsert_self _ _ _
    · rw [show parseStep ⟨tbl, k, acc⟩ s = ⟨tbl, k, acc ++ [s]⟩ from by
        simp [parseStep, hd]]
      rw [ih _ _ _ hk fun l hl hdl => hall l (by simp [hl]) hdl]
      congr 1
      rw [show (s :: rest).takeWhile (fun l => !isDelimLine l) =
          s :: rest.takeWhile (fun l => !isDelimLine l) from by
        simp [List.takeWhile_cons, hd]]
      simp

theorem nodup_keys_parse_aux :
    ∀ (ls : List String) (st : PState), (st.tbl.map Prod.fst).Nodup →
      ((finishTbl (ls.foldl parseStep st)).map Prod.fst).Nodup := by
  intro ls
  induction ls with
  | nil =>
    intro st h
    simp only [List.foldl_nil]
    unfold finishTbl
    by_cases h0 : st.key = ""
    · rw [if_pos h0]
      exact h
    · rw [if_neg h0]
      exact nodup_keys_dinsert _ _ _ h
  | cons s rest ih =>
    intro st h
    simp only [List.foldl_cons]
    apply ih
    unfold parseStep
    by_cases hd : isDelimLine s
    · rw [if_pos hd]
      simp only
      by_cases h0 : st.key = ""
      · rw [if_pos h0]
        exact h
      · rw [if_neg h0]
        exact nodup_keys_dinsert _ _ _ h
    · rw [if_neg hd]
      exact h

/-- C7: the table entry for a key is the content of the key's latest
opening delimiter (last write wins), and every key occurs at most once
in the table. -/
theorem duplicate_keys_last_write_wins (ls u rest : List String) (d k : String)
    (heq : ls = u ++ d :: rest) (hd : isDelimLine d = true) (hk : delimKey d = k)
    (hlast : ∀ l ∈ rest, isDelimLine l = true → delimKey l ≠ k) :
    (outputBlocks ls).lookup k =
      some (stripBlankLines (rest.takeWhile fun l => !isDelimLine l))
    ∧ ((outputBlocks ls).map Prod.fst).Nodup := by
  constructor
  · have hkne : k ≠ "" := by
      rw [← hk]
      exact delimKey_ne_empty d hd
    unfold outputBlocks
    rw [heq, List.foldl_append, List.foldl_cons]
    rw [show parseStep (u.foldl parseStep ⟨[], "", []⟩) d =
        ⟨if (u.foldl parseStep ⟨[], "", []⟩).key = ""
         then (u.foldl parseStep ⟨[], "", []⟩).tbl
         else dinsert (u.foldl parseStep ⟨[], "", []⟩).key
           (stripBlankLines (u.foldl parseStep ⟨[], "", []⟩).acc)
           (u.foldl parseStep ⟨[], "", []⟩).tbl, k, []⟩ from by
      simp [parseStep, hd, hk]]
    have := lookup_finish_foldl_current rest
      (if (u.foldl parseStep ⟨[], "", []⟩).key = ""
       then (u.foldl parseStep ⟨[], "", []⟩).tbl
       else dinsert (u.foldl parseStep ⟨[], "", []⟩).key
         (stripBlankLines (u.foldl parseStep ⟨[], "", []⟩).acc)
         (u.foldl parseStep ⟨[], "", []⟩).tbl) [] k hkne hlast
    simpa using this
  · unfold outputBlocks
    exact nodup_keys_parse_aux ls ⟨[], "", []⟩ (by simp)

/-- Witness for C7: the key `[out]` is opened twice; the final entry is
the later occurrence's content. -/
theorem duplicate_keys_last_write_wins_witness :
    (outputBlocks ["# [out] #", "a", "# [out] #", "b"]).lookup "[out]" =
      some (stripBlankLines (["b"].takeWhile fun l => !isDelimLine l))
    ∧ ((outputBlocks ["# [out] #", "a", "# [out] #", "b"]).map Prod.fst).Nodup :=
  duplicate_keys_last_write_wins ["# [out] #", "a", "# [out] #", "b"]
    ["# [out] #", "a"] ["b"] "# [out] #" "[out]" rfl (by decide) (by decide)
    (by decide)

/-! ### C5: what each stored block contains -/

theorem exists_first_split (p : String → Bool) :
    ∀ (ls : List String), (∀ l ∈ ls, p l = false) ∨
      ∃ pre d rest, ls = pre ++ d :: rest ∧ (∀ l ∈ pre, p l = false) ∧ p d = true := by
  intro ls
  induction ls with
  | nil => exact Or.inl (by simp)
  | cons s rest ih =>
    by_cases hs : p s = true
    · exact Or.inr ⟨[], s, rest, rfl, by simp, hs⟩
    · have hs' : p s = false := by
        revert hs ; cases p s <;> simp
      rcases ih with h | ⟨pre, d, r2, heq, hpre, hd⟩
      · refine Or.inl fun l hl => ?_
        rcases List.mem_cons.1 hl with h1 | h1
        · subst h1
          exact hs'
        · exact h l h1
      · refine Or.inr ⟨s :: pre, d, r2, by rw [heq] ; rfl, fun l hl => ?_, hd⟩
        rcases List.mem_cons.1 hl with h1 | h1
        · subst h1
          exact hs'
        · exact hpre l h1

/-- Main parser characterization: any entry of the final table either
was already in the starting table, or is the still-open block closed by
end of input, or is the blank-stripped run of delimiter-free lines
following some delimiter line whose key it carries, ending at the next
delimiter or end of input. -/
theorem parse_lookup_characterization :
    ∀ (n : Nat) (rest : List String), rest.length ≤ n →
      ∀ (tbl : List (String × List String)) (key : String) (acc : List String)
        (k : String) (b : List String),
        (finishTbl (rest.foldl parseStep ⟨tbl, key, acc⟩)).lookup k = some b →
        tbl.lookup k = some b
        ∨ (k = key ∧ key ≠ "" ∧ ∃ mid tail, rest = mid ++ tail
            ∧ (∀ l ∈ mid, isDelimLine l = false)
            ∧ (tail = [] ∨ ∃ d2 t2, tail = d2 :: t2 ∧ isDelimLine d2 = true)
            ∧ b = stripBlankLines (acc ++ mid))
        ∨ (∃ u d mid tail, rest = u ++ d :: (mid ++ tail)
            ∧ isDelimLine d = true ∧ delimKey d = k
            ∧ (∀ l ∈ mid, isDelimLine l = false)
            ∧ (tail = [] ∨ ∃ d2 t2, tail = d2 :: t2 ∧ isDelimLine d2 = true)
            ∧ b = stripBlankLines mid) := by
  intro n
  induction n with
  | zero =>
    intro rest hlen tbl key acc k b h
    have hrest : rest = [] := List.length_eq_zero.1 (Nat.le_zero.1 hlen)
    subst hrest
    simp only [List.foldl_nil] at h
    unfold finishTbl at h
    by_cases h0 : key = ""
    · rw [if_pos h0] at h
      exact Or.inl h
    · rw [if_neg h0] at h
      by_cases hkk : k = key
      · subst hkk
        rw [lookup_dinsert_self] at h
        have hb : b = stripBlankLines acc := (Option.some.inj h).symm
        refine Or.inr (Or.inl ⟨rfl, h0, [], [], by simp, by simp, Or.inl rfl, ?_⟩)
        rw [List.append_nil]
        exact hb
      · rw [lookup_dinsert_ne _ _ _ _ hkk] at h
        exact Or.inl h
  | succ n ih =>
    intro rest hlen tbl key acc k b h
    rcases exists_first_split isDelimLine rest with hall | ⟨pre, d, rest2, heq, hpre, hd⟩
    · rw [foldl_parseStep_nodelim rest _ hall] at h
      unfold finishTbl at h
      by_cases h0 : key = ""
      · rw [if_pos h0] at h
        exact Or.inl h
      · rw [if_neg h0] at h
        by_cases hkk : k = key
        · subst hkk
          rw [lookup_dinsert_self] at h
          have hb : b = stripBlankLines (acc ++ rest) := (Option.some.inj h).symm
          exact Or.inr (Or.inl ⟨rfl, h0, rest, [], by simp, hall, Or.inl rfl, hb⟩)
        · rw [lookup_dinsert_ne _ _ _ _ hkk] at h
          exact Or.inl h
    · subst heq
      rw [List.foldl_append, foldl_parseStep_nodelim pre _ hpre, List.foldl_cons] at h
      rw [show parseStep ⟨tbl, key, acc ++ pre⟩ d =
          ⟨if key = "" then tbl else dinsert key (stripBlankLines (acc ++ pre)) tbl,
           delimKey d, []⟩ from by simp [parseStep, hd]] at h
      have hlen2 : rest2.length ≤ n := by
        simp only [List.length_append, List.length_cons] at hlen
        omega
      have h' := ih rest2 hlen2 _ (delimKey d) [] k b h
      rcases h' with h1 | ⟨hkk, _, mid, tail, hmt, hmid, htail, hb⟩ |
        ⟨u2, d2, mid, tail, hsplit, hd2, hk2, hmid, htail, hb⟩
      · by_cases h0 : key = ""
        · rw [if_pos h0] at h1
          exact Or.inl h1
        · rw [if_neg h0] at h1
          by_cases hkk : k = key
          · subst hkk
            rw [lookup_dinsert_self] at h1
            have hb : b = stripBlankLines (acc ++ pre) := (Option.some.inj h1).symm
            exact Or.inr (Or.inl ⟨rfl, h0, pre, d :: rest2, rfl, hpre,
              Or.inr ⟨d, rest2, rfl, hd⟩, hb⟩)
          · rw [lookup_dinsert_ne _ _ _ _ hkk] at h1
            exact Or.inl h1
      · refine Or.inr (Or.inr ⟨pre, d, mid, tail, by rw [hmt], hd, hkk.symm,
          hmid, htail, by simpa using hb⟩)
      · refine Or.inr (Or.inr ⟨pre ++ d :: u2, d2, mid, tail, ?_, hd2, hk2,
          hmid, htail, hb⟩)
        rw [hsplit]
        simp

/-- C5 (amended, for the implementing-tutorial parser): every stored
block's content is the blank-stripped sequence of delimiter-free lines
lying strictly between some delimiter line opening its key and the next
delimiter line (or end of input); in particular no delimiter line, and
no line preceding the first delimiter, contributes to any stored block. -/
theorem block_content_characterized (ls : List String) (k : String) (b : List String)
    (h : (outputBlocks ls).lookup k = some b) :
    ∃ u d mid tail, ls = u ++ d :: (mid ++ tail)
      ∧ isDelimLine d = true ∧ delimKey d = k
      ∧ (∀ l ∈ mid, isDelimLine l = false)
      ∧ (tail = [] ∨ ∃ d2 t2, tail = d2 :: t2 ∧ isDelimLine d2 = true)
      ∧ b = stripBlankLines mid
      ∧ (∀ l ∈ b, isDelimLine l = false) := by
  have h' := parse_lookup_characterization ls.length ls le_rfl [] "" [] k b (by
    unfold outputBlocks at h
    exact h)
  rcases h' with h1 | ⟨_, hne, _⟩ | ⟨u, d, mid, tail, heq, hd, hk, hmid, htail, hb⟩
  · simp [List.lookup] at h1
  · exact absurd rfl hne
  · refine ⟨u, d, mid, tail, heq, hd, hk, hmid, htail, hb, fun l hl => ?_⟩
    exact hmid l (mem_of_mem_stripBlankLines mid l (hb ▸ hl))

/-- Counterexample to C5 as stated: the tutorial-variant parser (also
cited by the claim) appends the delimiter line itself to the block
content — the stored block for `@OUTPUT x` contains its own delimiter
line — violating "delimiter lines themselves are part of no stored
block's content". -/
theorem block_content_counterexample :
    "@OUTPUT x" ∈ ((tutorialOutputBlocks ["@OUTPUT x", "a"]).lookup "@OUTPUT x").getD []
    ∧ pyStartsWith "@OUTPUT x" "@OUTPUT" = true := by
  decide

/-- Witness for the amended C5 at a concrete input. -/
theorem block_content_characterized_witness :
    (outputBlocks ["# [k] #", "x"]).lookup "[k]" = some ["x"]
    ∧ ∃ u d mid tail, ["# [k] #", "x"] = u ++ d :: (mid ++ tail)
        ∧ isDelimLine d = true ∧ delimKey d = "[k]"
        ∧ (∀ l ∈ mid, isDelimLine l = false)
        ∧ (tail = [] ∨ ∃ d2 t2, tail = d2 :: t2 ∧ isDelimLine d2 = true)
        ∧ ["x"] = stripBlankLines mid
        ∧ (∀ l ∈ (["x"] : List String), isDelimLine l = false) :=
  ⟨by decide, block_content_characterized ["# [k] #", "x"] "[k]" ["x"] (by decide)⟩

/-! ### C6: idempotence of the two-pass region extension -/

theorem sweepFix_cons (prev : Bool) (s : String) (rest : List String) :
    SweepFix prev (s :: rest) ↔
      (isBlank s && prev) = false ∧ SweepFix (isText s) rest := Iff.rfl

theorem sweepLines_eq_self_of_sweepFix :
    ∀ (xs : List String) (prev : Bool), SweepFix prev xs → sweepLines prev xs = xs := by
  intro xs
  induction xs with
  | nil => intro prev _ ; rfl
  | cons s rest ih =>
    intro prev h
    obtain ⟨h1, h2⟩ := h
    simp only [sweepLines]
    rw [show extendText prev s = (s, isText s) from by simp [extendText, h1]]
    rw [ih (isText s) h2]

/-- The forward sweep's output is a fixed point of the forward sweep
with the same seed. -/
theorem sweepLines_sweepFix :
    ∀ (xs : List String) (prev : Bool), SweepFix prev (sweepLines prev xs) := by
  intro xs
  induction xs with
  | nil => intro prev ; trivial
  | cons s rest ih =>
    intro prev
    by_cases hrw : (isBlank s && prev) = true
    · rw [show sweepLines prev (s :: rest) = textMarker :: sweepLines true rest from by
        simp only [sweepLines]
        rw [show extendText prev s = (textMarker, true) from by simp [extendText, hrw]]]
      rw [sweepFix_cons]
      refine ⟨?_, ?_⟩
      · rw [show isBlank textMarker = false from by decide]
        simp
      · rw [show isText textMarker = true from by decide]
        exact ih true
    · have hrw' : (isBlank s && prev) = false := by
        revert hrw ; cases (isBlank s && prev) <;> simp
      rw [show sweepLines prev (s :: rest) = s :: sweepLines (isText s) rest from by
        simp only [sweepLines]
        rw [show extendText prev s = (s, isText s) from by simp [extendText, hrw']]]
      exact ⟨hrw', ih (isText s)⟩

/-- The flag a forward sweep leaves equals `isText` of the last output
line (or the seed if the input is empty). -/
theorem sweepFlag_eq_getLast? :
    ∀ (xs : List String) (prev : Bool),
      sweepFlag prev xs = (((sweepLines prev xs).getLast?).map isText).getD prev := by
  intro xs
  induction xs with
  | nil => intro prev ; rfl
  | cons s rest ih =>
    intro prev
    simp only [sweepFlag, sweepLines]
    rw [ih (extendText prev s).2]
    cases hrest : sweepLines (extendText prev s).2 rest with
    | nil =>
      simp only [List.getLast?_nil, Option.map_none, Option.getD_none,
        List.getLast?_singleton, Option.map_some, Option.getD_some]
      by_cases hrw : (isBlank s && prev) = true
      · rw [show extendText prev s = (textMarker, true) from by simp [extendText, hrw]]
        simp [show isText textMarker = true from by decide]
      · have hrw' : (isBlank s && prev) = false := by
          revert hrw ; cases (isBlank s && prev) <;> simp
        rw [show extendText prev s = (s, isText s) from by simp [extendText, hrw']]
        simp
    | cons y t =>
      simp only [List.getLast?_cons_cons]
      rcases hz : (y :: t).getLast? with _ | z
      · exact absurd (List.getLast?_eq_none_iff.1 hz) (by simp)
      · simp

/-- The flag reaching the leftmost position of a backward sweep equals
`isText` of the first output line (or the seed if the input is empty). -/
theorem bsweepFlag_eq_head? :
    ∀ (xs : List String) (prev : Bool),
      bsweepFlag prev xs = (((bsweepLines prev xs).head?).map isText).getD prev := by
  intro xs prev
  cases xs with
  | nil => rfl
  | cons s rest =>
    simp only [bsweepFlag, bsweepLines, List.head?_cons, Option.map_some, Option.getD_some]
    by_cases hrw : (isBlank s && bsweepFlag prev rest) = true
    · rw [show extendText (bsweepFlag prev rest) s = (textMarker, true) from by
        simp [extendText, hrw]]
      simp [show isText textMarker = true from by decide]
    · have hrw' : (isBlank s && bsweepFlag prev rest) = false := by
        revert hrw ; cases (isBlank s && bsweepFlag prev rest) <;> simp
      rw [show extendText (bsweepFlag prev rest) s = (s, isText s) from by
        simp [extendText, hrw']]
      simp

/-- A backward sweep leaves its own flags unchanged on its output. -/
theorem bsweepFlag_bsweepLines :
    ∀ (xs : List String) (prev : Bool),
      bsweepFlag prev (bsweepLines prev xs) = bsweepFlag prev xs := by
  intro xs
  induction xs with
  | nil => intro prev ; rfl
  | cons s rest ih =>
    intro prev
    simp only [bsweepLines, bsweepFlag]
    rw [ih prev]
    by_cases hrw : (isBlank s && bsweepFlag prev rest) = true
    · rw [show extendText (bsweepFlag prev rest) s = (textMarker, true) from by
        simp [extendText, hrw]]
      simp only
      rw [show extendText (bsweepFlag prev rest) textMarker = (textMarker, true) from by
        simp [extendText, show isBlank textMarker = false from by decide,
          show isText textMarker = true from by decide]]
    · have hrw' : (isBlank s && bsweepFlag prev rest) = false := by
        revert hrw ; cases (isBlank s && bsweepFlag prev rest) <;> simp
      have he : extendText (bsweepFlag prev rest) s = (s, isText s) := by
        simp [extendText, hrw']
      rw [he]
      simp only
      rw [he]

/-- The backward sweep's output is a fixed point of the backward sweep
with the same seed. -/
theorem bsweepLines_idem :
    ∀ (xs : List String) (prev : Bool),
      bsweepLines prev (bsweepLines prev xs) = bsweepLines prev xs := by
  intro xs
  induction xs with
  | nil => intro prev ; rfl
  | cons s rest ih =>
    intro prev
    simp only [bsweepLines]
    rw [bsweepFlag_bsweepLines rest prev, ih prev]
    by_cases hrw : (isBlank s && bsweepFlag prev rest) = true
    · rw [show extendText (bsweepFlag prev rest) s = (textMarker, true) from by
        simp [extendText, hrw]]
      simp only
      rw [show extendText (bsweepFlag prev rest) textMarker = (textMarker, true) from by
        simp [extendText, show isBlank textMarker = false from by decide,
          show isText textMarker = true from by decide]]
    · have hrw' : (isBlank s && bsweepFlag prev rest) = false := by
        revert hrw ; cases (isBlank s && bsweepFlag prev rest) <;> simp
      have he : extendText (bsweepFlag prev rest) s = (s, isText s) := by
        simp [extendText, hrw']
      rw [he]
      simp only
      rw [he]

theorem sweepFix_true_of_false (xs : List String) (h : SweepFix false xs)
    (hh : ∀ x, xs.head? = some x → isBlank x = false) : SweepFix true xs := by
  cases xs with
  | nil => trivial
  | cons x rest =>
    obtain ⟨_, h2⟩ := h
    exact ⟨by simp [hh x rfl], h2⟩

/-- Crucial transfer: a backward sweep (any seed) preserves forward
stability.  A blank line can only be rewritten by the backward sweep if
the line to its right came out as text, so no rewrite ever puts a text
line immediately before a remaining blank. -/
theorem bsweep_preserves_sweepFix :
    ∀ (xs : List String) (f : Bool) (a : Bool),
      SweepFix a xs → SweepFix a (bsweepLines f xs) := by
  intro xs f
  induction xs with
  | nil => intro a _ ; trivial
  | cons s rest ih =>
    intro a h
    obtain ⟨h1, h2⟩ := h
    have ihr : SweepFix (isText s) (bsweepLines f rest) := ih (isText s) h2
    simp only [bsweepLines]
    by_cases hrw : (isBlank s && bsweepFlag f rest) = true
    · have hbg : isBlank s = true ∧ bsweepFlag f rest = true := by
        simpa using hrw
      rw [show extendText (bsweepFlag f rest) s = (textMarker, true) from by
        simp [extendText, hrw]]
      dsimp only
      rw [sweepFix_cons]
      refine ⟨?_, ?_⟩
      · rw [show isBlank textMarker = false from by decide]
        simp
      · rw [show isText textMarker = true from by decide]
        rw [isText_eq_false_of_isBlank s hbg.1] at ihr
        apply sweepFix_true_of_false _ ihr
        intro x hx
        have hflag := bsweepFlag_eq_head? rest f
        rw [hx] at hflag
        simp at hflag
        exact isBlank_eq_false_of_isText x (by rw [← hflag] ; exact hbg.2)
    · have hrw' : (isBlank s && bsweepFlag f rest) = false := by
        revert hrw ; cases (isBlank s && bsweepFlag f rest) <;> simp
      rw [show extendText (bsweepFlag f rest) s = (s, isText s) from by
        simp [extendText, hrw']]
      dsimp only
      rw [sweepFix_cons]
      exact ⟨h1, ihr⟩

/-- If the backward sweep fixes a list whose last line is blank, the
seed must have been `false`. -/
theorem bsweepLines_fix_last_blank :
    ∀ (xs : List String) (p : Bool) (s : String),
      xs.getLast? = some s → isBlank s = true → bsweepLines p xs = xs → p = false := by
  intro xs
  induction xs with
  | nil => intro p s h ; simp at h
  | cons x rest ih =>
    intro p s hlast hb hfix
    cases rest with
    | nil =>
      have hxs : x = s := by
        simpa using hlast
      rw [← hxs] at hb
      cases hp : p
      · rfl
      · exfalso
        subst hp
        rw [show bsweepLines true [x] = [(extendText true x).1] from rfl] at hfix
        rw [show extendText true x = (textMarker, true) from by
          simp [extendText, hb]] at hfix
        have hx : textMarker = x := by simpa using hfix
        rw [← hx] at hb
        exact absurd hb (by decide)
    | cons y t =>
      have hlast' : (y :: t).getLast? = some s := by
        simpa using hlast
      rw [show bsweepLines p (x :: y :: t) =
          (extendText (bsweepFlag p (y :: t)) x).1 :: bsweepLines p (y :: t) from rfl] at hfix
      have htail : bsweepLines p (y :: t) = y :: t := by
        have := congrArg List.tail hfix
        simpa using this
      exact ih p s hlast' hb htail

/-- With a non-blank last line, the backward sweep ignores its seed. -/
theorem bsweep_seed_irrel :
    ∀ (xs : List String) (p q : Bool) (s : String),
      xs.getLast? = some s → isBlank s = false →
      bsweepLines p xs = bsweepLines q xs ∧ bsweepFlag p xs = bsweepFlag q xs := by
  intro xs
  induction xs with
  | nil => intro p q s h ; simp at h
  | cons x rest ih =>
    intro p q s hlast hb
    cases rest with
    | nil =>
      have hxs : x = s := by simpa using hlast
      rw [← hxs] at hb
      constructor
      · rw [show bsweepLines p [x] = [(extendText p x).1] from rfl,
            show bsweepLines q [x] = [(extendText q x).1] from rfl,
            show extendText p x = (x, isText x) from by simp [extendText, hb],
            show extendText q x = (x, isText x) from by simp [extendText, hb]]
      · rw [show bsweepFlag p [x] = (extendText p x).2 from rfl,
            show bsweepFlag q [x] = (extendText q x).2 from rfl,
            show extendText p x = (x, isText x) from by simp [extendText, hb],
            show extendText q x = (x, isText x) from by simp [extendText, hb]]
    | cons y t =>
      have hlast' : (y :: t).getLast? = some s := by simpa using hlast
      obtain ⟨ihl, ihf⟩ := ih p q s hlast' hb
      constructor
      · rw [show bsweepLines p (x :: y :: t) =
            (extendText (bsweepFlag p (y :: t)) x).1 :: bsweepLines p (y :: t) from rfl,
            show bsweepLines q (x :: y :: t) =
            (extendText (bsweepFlag q (y :: t)) x).1 :: bsweepLines q (y :: t) from rfl,
            ihf, ihl]
      · rw [show bsweepFlag p (x :: y :: t) =
            (extendText (bsweepFlag p (y :: t)) x).2 from rfl,
            show bsweepFlag q (x :: y :: t) =
            (extendText (bsweepFlag q (y :: t)) x).2 from rfl,
            ihf]

/-- C6 (amended): the two-pass extension as implemented (forward sweep
seeded `true`, backward sweep seeded with the forward sweep's leftover
flag) is idempotent: running it on its own output changes nothing. -/
theorem extendAll_idem (xs : List String) : extendAll (extendAll xs) = extendAll xs := by
  have hfixzs : SweepFix true (bsweepLines (sweepFlag true xs) (sweepLines true xs)) :=
    bsweep_preserves_sweepFix (sweepLines true xs) (sweepFlag true xs) true
      (sweepLines_sweepFix xs true)
  have hzidem : bsweepLines (sweepFlag true xs)
      (bsweepLines (sweepFlag true xs) (sweepLines true xs)) =
      bsweepLines (sweepFlag true xs) (sweepLines true xs) :=
    bsweepLines_idem (sweepLines true xs) (sweepFlag true xs)
  unfold extendAll
  set zs := bsweepLines (sweepFlag true xs) (sweepLines true xs) with hzs
  have hlines : sweepLines true zs = zs := sweepLines_eq_self_of_sweepFix zs true hfixzs
  rw [hlines]
  cases hlast : zs.getLast? with
  | none =>
    have hnil : zs = [] := List.getLast?_eq_none_iff.1 hlast
    rw [hnil]
    rfl
  | some s =>
    by_cases hb : isBlank s = true
    · have hf1f : sweepFlag true xs = false :=
        bsweepLines_fix_last_blank zs (sweepFlag true xs) s hlast hb hzidem
      have hf2f : sweepFlag true zs = false := by
        rw [sweepFlag_eq_getLast? zs true, hlines, hlast]
        simp [isText_eq_false_of_isBlank s hb]
      rw [hf2f, ← hf1f]
      exact hzidem
    · have hb' : isBlank s = false := by
        revert hb ; cases isBlank s <;> simp
      rw [(bsweep_seed_irrel zs (sweepFlag true zs) (sweepFlag true xs) s hlast hb').1]
      exact hzidem

/-- Counterexample to C6 as stated: the code's backward sweep is *not*
reseeded `true` — the seed written to `previousLineWasText` is dead and
the loop reuses the forward pass's leftover `prevLineWasText` — so on
`["x", ""]` the code leaves the trailing blank alone while the
spec-described reseeded algorithm would rewrite it to the text marker. -/
theorem extendAll_counterexample :
    extendAll ["x", ""] ≠ extendAllReseeded ["x", ""] := by
  decide

end Emdeer
